import Mathlib

/-!
Verification of the entry segmentation engine of the Encyclopaedia
Britannica OCR parsers (`parse_britannica.py`, the ALTO-XML variant, and
`parse_britannica_text.py`, the plain-text variant).

Text is modelled as `List Char`; each Python source line becomes one
`List Char` with no newline characters.  Python's regular expressions are
embedded as executable scanners that reproduce the lazy/greedy matching
behaviour of the concrete patterns used by the source (`[A-Z]`, `[a-zA-Z]`,
`\s`, `\w` and word boundaries are taken in their ASCII reading, which is
exact on the ASCII lines the parsers consume).
-/

namespace Britannica

/-- Python `\s` (ASCII): space, tab, newline, carriage return, vertical tab,
form feed.  Used by `str.strip()` and the `\s` character class. -/
def pyIsSpace (c : Char) : Bool :=
  c = ' ' || c = '\t' || c = '\n' || c = '\r' || c = '\x0b' || c = '\x0c'

/-- Python `str.lstrip()`. -/
def pyLStrip (s : List Char) : List Char := s.dropWhile pyIsSpace

/-- Python `str.rstrip()`. -/
def pyRStrip (s : List Char) : List Char := (s.reverse.dropWhile pyIsSpace).reverse

/-- Python `str.strip()`. -/
def pyStrip (s : List Char) : List Char := pyRStrip (pyLStrip s)

/-- True when the character is a comma or a period. -/
def isCommaPeriod (c : Char) : Bool := c = ',' || c = '.'

/-- Python `str.rstrip(',.')`: remove every trailing comma/period. -/
def rstripCommaPeriod (s : List Char) : List Char :=
  (s.reverse.dropWhile isCommaPeriod).reverse

/-- The title normalisation used by `merge_duplicate_entries` in both
variants: `title.strip().rstrip(',.')`. -/
def normalizeTitle (t : List Char) : List Char := rstripCommaPeriod (pyStrip t)

/-- One encyclopedia entry: a title plus accumulated body text
(the `{'title': ..., 'text': ...}` dictionaries of the source). -/
structure Entry where
  title : List Char
  text : List Char
deriving DecidableEq, Repr

/-- Python's `' '.join(xs)`: the pieces joined by single spaces. -/
def joinSp : List (List Char) → List Char
  | [] => []
  | [x] => x
  | x :: y :: rest => x ++ ' ' :: joinSp (y :: rest)

/-- One step of the duplicate merger: the insertion-ordered dictionary
`merged` of the source, as an association list with unique titles.  If the
normalised title is already present its text grows by `' ' + text`,
otherwise a new entry is appended at the end (Python dicts preserve
insertion order). -/
def addEntry (nt text : List Char) : List Entry → List Entry
  | [] => [⟨nt, text⟩]
  | a :: rest =>
    if a.title = nt then { a with text := a.text ++ ' ' :: text } :: rest
    else a :: addEntry nt text rest

/-- `merge_duplicate_entries` (identical in both source variants): fold the
entries into an insertion-ordered dictionary keyed by
`title.strip().rstrip(',.')`, then list the values. -/
def merge_duplicate_entries (entries : List Entry) : List Entry :=
  entries.foldl (fun acc e => addEntry (normalizeTitle e.title) e.text acc) []

/-- First occurrences, in order, of the elements of a list (the key order
of an insertion-ordered dictionary built from it). -/
def firstOccs : List (List Char) → List (List Char)
  | [] => []
  | t :: ts => t :: (firstOccs ts).filter (fun s => ¬ s = t)

/-- The space-joined concatenation, in emission order, of the texts of the
entries whose normalised title is `t`. -/
def groupText (entries : List Entry) (t : List Char) : List Char :=
  joinSp ((entries.filter (fun e => normalizeTitle e.title = t)).map Entry.text)

/-- The duplicate merger as the specification §4.5 words it: group the
entries by normalised title, keep the order of each title's first
occurrence, and give each group the space-joined concatenation of its
members' texts in emission order. -/
def specMerge (entries : List Entry) : List Entry :=
  (firstOccs (entries.map (fun e => normalizeTitle e.title))).map
    (fun t => ⟨t, groupText entries t⟩)

/-- Abbreviation turning a string literal into the `List Char` the model
works on. -/
def toL (s : String) : List Char := s.data

/-! ### Regular-expression scanners

Executable embeddings of the concrete patterns of the source.  Each is a
deterministic scanner; determinism is justified because in every pattern the
characters that may terminate the lazy group are not members of the group's
character class (except for the plain-text title-only pattern, where the
scanner tries the terminator first, exactly as a lazy group does). -/

/-- The character class `[A-Z\s\-]` of the single-line and XML title-only
patterns. -/
def titleCls (c : Char) : Bool := c.isUpper || pyIsSpace c || c = '-'

/-- The character class `[A-Z\s\-,]` of the plain-text title-only pattern. -/
def textTitleCls (c : Char) : Bool := titleCls c || c = ','

/-- The tail `\s+(.+)$` of the single-line pattern: at least one whitespace
character, then at least one arbitrary character reaching the end of the
line; returns group 3.  When the whole tail is whitespace the greedy `\s+`
backtracks by one character so that `.+` can still match. -/
def spacePlusRest (rest : List Char) : Option (List Char) :=
  match rest with
  | [] => none
  | w :: t =>
    if pyIsSpace w then
      let tail := rest.dropWhile pyIsSpace
      if tail.isEmpty then
        if t.isEmpty then none else some [t.getLastD w]
      else some tail
    else none

/-- `re.match(r'^([A-Z][A-Z\s\-]+?)([\.,])\s+(.+)$', line)` — the
single-line-entry pattern shared by both variants; returns groups 1 and 3.
The lazy group 1 must absorb the whole run of class characters, because the
following `[\.,]` is outside the class. -/
def singleLineMatch : List Char → Option (List Char × List Char)
  | [] => none
  | c0 :: rest =>
    if c0.isUpper then
      let run := rest.takeWhile titleCls
      if run.isEmpty then none
      else
        match rest.dropWhile titleCls with
        | [] => none
        | p :: rest3 =>
          if isCommaPeriod p then
            match spacePlusRest rest3 with
            | some g3 => some (c0 :: run, g3)
            | none => none
          else none
    else none

/-- Scanner for the tail of `^([A-Z][A-Z\s\-]+?)(?:,|\.|$)`: extend the
group while class characters arrive, succeed on a comma, a period or the
end of the line. -/
def xmlMultiAux (acc : List Char) : List Char → Option (List Char)
  | [] => some acc
  | c :: rest =>
    if isCommaPeriod c then some acc
    else if titleCls c then xmlMultiAux (acc ++ [c]) rest
    else none

/-- `re.match(r'^([A-Z][A-Z\s\-]+?)(?:,|\.|$)', line)` — the XML variant's
title-only pattern; returns group 1. -/
def xmlMultiMatch : List Char → Option (List Char)
  | c0 :: c1 :: rest =>
    if c0.isUpper && titleCls c1 then xmlMultiAux [c0, c1] rest else none
  | _ => none

/-- Scanner for the tail of `^([A-Z][A-Z\s\-,]+?)[\.,]\s*$`: lazily try the
terminator `[\.,]\s*$` first, otherwise extend the group (a comma belongs
to both the class and the terminator, and the lazy group prefers the
terminator). -/
def textMultiAux (acc : List Char) : List Char → Option (List Char)
  | [] => none
  | c :: rest =>
    if isCommaPeriod c && rest.all pyIsSpace then some acc
    else if textTitleCls c then textMultiAux (acc ++ [c]) rest
    else none

/-- `re.match(r'^([A-Z][A-Z\s\-,]+?)[\.,]\s*$', line)` — the plain-text
variant's title-only pattern; returns group 1. -/
def textMultiMatch : List Char → Option (List Char)
  | c0 :: c1 :: rest =>
    if c0.isUpper && textTitleCls c1 then textMultiAux [c0, c1] rest else none
  | _ => none

/-- Python `\w` (ASCII): letters, digits, underscore.  Word boundaries `\b`
sit exactly at the edges of maximal runs of these characters. -/
def isWordChar (c : Char) : Bool := c.isAlpha || c.isDigit || c = '_'

/-- Maximal runs of word characters of a text (`acc` carries the reversed
run in progress). -/
def wordRunsAux (acc : List Char) : List Char → List (List Char)
  | [] => if acc.isEmpty then [] else [acc.reverse]
  | c :: rest =>
    if isWordChar c then wordRunsAux (c :: acc) rest
    else if acc.isEmpty then wordRunsAux [] rest
    else acc.reverse :: wordRunsAux [] rest

/-- Maximal runs of word characters of a text. -/
def wordRuns (s : List Char) : List (List Char) := wordRunsAux [] s

/-- `len(re.findall(r'\b[A-Z]{3,}\b', s))`: a match is exactly a maximal
word-character run made of uppercase letters only, of length at least 3
(a run containing any other word character admits no interior boundary). -/
def upperTokens (s : List Char) : Nat :=
  (wordRuns s).countP (fun r => decide (3 ≤ r.length) && r.all Char.isUpper)

/-- `len(re.findall(r'\b[a-zA-Z]{3,}\b', s))`: likewise with runs made of
letters only. -/
def alphaTokens (s : List Char) : Nat :=
  (wordRuns s).countP (fun r => decide (3 ≤ r.length) && r.all Char.isAlpha)

/-- `re.match(r'^[A-Z]\s', t)`. -/
def singleUpperThenSpace (t : List Char) : Bool :=
  match t with
  | c :: d :: _ => c.isUpper && pyIsSpace d
  | _ => false

/-- `re.match(r'^[A-Z],', t)`. -/
def singleUpperThenComma (t : List Char) : Bool :=
  match t with
  | c :: d :: _ => c.isUpper && d = ','
  | _ => false

/-- `re.match(r'^[A-Z]$', t)`. -/
def isSingleUpper (t : List Char) : Bool :=
  match t with
  | [c] => c.isUpper
  | _ => false

/-- True when the character is `.`, `!` or `?`. -/
def sentencePunct (c : Char) : Bool := c = '.' || c = '!' || c = '?'

/-- `re.search(r'[.!?](\s|$)', text)`: some sentence-terminal punctuation
mark is followed by whitespace or ends the text. -/
def hasSentenceEnd : List Char → Bool
  | [] => false
  | [c] => sentencePunct c
  | c :: d :: rest => (sentencePunct c && pyIsSpace d) || hasSentenceEnd (d :: rest)

/-- `BritannicaTextParser.is_valid_entry`: reject when the stripped text is
shorter than 20 characters; otherwise require a sentence-terminal
punctuation mark followed by whitespace or the end of the text
(`re.search(r'[.!?](\s|$)', text)`) and at least five word tokens of three
or more letters (`re.findall(r'\b[a-zA-Z]{3,}\b', text)`). -/
def is_valid_entry (text : List Char) : Bool :=
  if text.isEmpty ∨ (pyStrip text).length < 20 then false
  else if hasSentenceEnd text then decide (5 ≤ alphaTokens text)
  else false

/-! ### The XML variant's segmentation state machine
(`BritannicaParser.extract_entries` of `parse_britannica.py`). -/

/-- The loop state of `BritannicaParser.extract_entries`: the emitted
entries plus the open span, if any. -/
structure XmlState where
  entries : List Entry
  current : Option Entry
deriving DecidableEq, Repr

/-- Append `' ' + line` to the open span when one is open, else do nothing
(the continuation branches of the XML variant's single-line checks and its
final `elif current_entry`). -/
def xmlAppendCont (s : XmlState) (line : List Char) : XmlState :=
  match s.current with
  | some c => { s with current := some { c with text := c.text ++ ' ' :: line } }
  | none => s

/-- Close the open span, if any, by emitting it. -/
def xmlFlush (entries : List Entry) : Option Entry → List Entry
  | some c => entries ++ [c]
  | none => entries

/-- The XML variant's handling of a line against the title-only pattern and
the trailing continuation branches. -/
def xmlMultiStep (s : XmlState) (line : List Char) : XmlState :=
  match xmlMultiMatch line with
  | some g1 =>
    let title := rstripCommaPeriod (pyStrip g1)
    if singleUpperThenSpace title || singleUpperThenComma title then s
    else if 10 < title.count ' ' then s
    else if 5 ≤ title.length ∧ 1 ≤ upperTokens title then
      { entries := xmlFlush s.entries s.current, current := some ⟨title, line⟩ }
    else xmlAppendCont s line
  | none => xmlAppendCont s line

/-- One iteration of the XML variant's line loop: try the single-line
pattern (title validated by the single-letter-prefix, excessive-spacing,
length, whole-word and line-length tests; on success the previous span is
closed and a complete entry `{title, line}` is emitted at once), falling
through to the title-only pattern otherwise. -/
def xmlStep (s : XmlState) (line : List Char) : XmlState :=
  match singleLineMatch line with
  | some (g1, _) =>
    let title := pyStrip g1
    if singleUpperThenSpace title || isSingleUpper title then xmlAppendCont s line
    else if 10 < title.count ' ' then xmlAppendCont s line
    else if 5 ≤ title.length ∧ 1 ≤ upperTokens title ∧ 10 < line.length then
      { entries := xmlFlush s.entries s.current ++ [⟨title, line⟩], current := none }
    else xmlMultiStep s line
  | none => xmlMultiStep s line

/-- `BritannicaParser.extract_entries` applied to the text lines supplied by
the collaborator `get_text_lines`: scan the lines, flush the last open
span, then merge duplicate titles. -/
def xmlExtractEntries (lines : List (List Char)) : List Entry :=
  let s := lines.foldl xmlStep ⟨[], none⟩
  merge_duplicate_entries (xmlFlush s.entries s.current)

/-- The entry list produced by `BritannicaParser.parse`: when extraction
yields nothing and the document has any lines at all, fall back to a single
`Unknown` entry holding all lines joined by spaces. -/
def xmlParseEntries (lines : List (List Char)) : List Entry :=
  let entries := xmlExtractEntries lines
  if entries.isEmpty then
    if lines.isEmpty then [] else [⟨toL "Unknown", joinSp lines⟩]
  else entries

/-! ### The plain-text variant's segmentation state machine
(`BritannicaTextParser.extract_entries` of `parse_britannica_text.py`). -/

/-- The boilerplate phrases of `skip_patterns`: a stripped line containing
any of them (case-sensitive substring test) is dropped. -/
def skipPatterns : List (List Char) :=
  [toL "ENCYCLOPAEDIA BRITANNICA", toL "SEVENTH EDITION", toL "DICTIONARY",
   toL "VOLUME", toL "SCIENCES", toL "LITERATURE", toL "DISSERTATIONS",
   toL "SUPPLEMENT", toL "GENERAL INDEX", toL "ENGRAVINGS", toL "EDINBURGH"]

/-- Whether `pat` occurs as a contiguous run at the head of `s`. -/
def hasPrefixL : List Char → List Char → Bool
  | [], _ => true
  | _ :: _, [] => false
  | p :: ps, c :: cs => p = c && hasPrefixL ps cs

/-- Python's `pat in s`: substring containment. -/
def containsSub (pat : List Char) : List Char → Bool
  | [] => pat.isEmpty
  | c :: rest => hasPrefixL pat (c :: rest) || containsSub pat rest

/-- The Header/Noise Filter of the plain-text variant: the stripped line
contains one of the boilerplate phrases. -/
def isNoiseLine (line : List Char) : Bool :=
  skipPatterns.any (fun p => containsSub p (pyStrip line))

/-- The loop state of `BritannicaTextParser.extract_entries`: emitted
entries, the open span, and the `in_content` flag that stays false until
the first accepted title. -/
structure TextState where
  entries : List Entry
  current : Option Entry
  inContent : Bool
deriving DecidableEq, Repr

/-- Close the open span by emitting it, but only when it has text and
passes `is_valid_entry`. -/
def closeIfValid (entries : List Entry) : Option Entry → List Entry
  | some c =>
    if ¬ c.text.isEmpty then
      if is_valid_entry c.text then entries ++ [c] else entries
    else entries
  | none => entries

/-- Append the stripped line to the open span (space-separated once the
accumulated text is nonempty), provided content has started and a span is
open — the continuation used by the plain-text single-line reject
branches. -/
def textAppendCont (s : TextState) (ls : List Char) : TextState :=
  if s.inContent then
    match s.current with
    | some c =>
      { s with current := some { c with
          text := if c.text.isEmpty then ls else c.text ++ ' ' :: ls } }
    | none => s
  else s

/-- The bottom continuation block of the plain-text loop: as
`textAppendCont`, but stripped lines of length at most 2 are discarded. -/
def textContinuation (s : TextState) (ls : List Char) : TextState :=
  if s.inContent then
    match s.current with
    | some c =>
      if 2 < ls.length then
        { s with current := some { c with
            text := if c.text.isEmpty then ls else c.text ++ ' ' :: ls } }
      else s
    | none => s
  else s

/-- The plain-text variant's handling of a stripped line against the
title-only pattern; an accepted title closes the previous span (emitting it
only when valid) and opens a span with empty text. -/
def textMultiStep (s : TextState) (ls : List Char) : TextState :=
  match textMultiMatch ls with
  | some g1 =>
    let title := rstripCommaPeriod (pyStrip g1)
    if singleUpperThenSpace title || singleUpperThenComma title then s
    else if 10 < title.count ' ' then s
    else if 5 ≤ title.length ∧ 1 ≤ upperTokens title then
      { entries := closeIfValid s.entries s.current, current := some ⟨title, []⟩,
        inContent := true }
    else textContinuation s ls
  | none => textContinuation s ls

/-- One iteration of the plain-text line loop: skip blank lines, drop
boilerplate, try the single-line pattern (on success close the previous
span, then either emit the complete entry at once when its inline text is
already valid, or keep it open to accumulate), fall through to the
title-only pattern and the continuation block otherwise. -/
def textStep (s : TextState) (line : List Char) : TextState :=
  let ls := pyStrip line
  if ls.isEmpty then s
  else if skipPatterns.any (fun p => containsSub p ls) then s
  else
    match singleLineMatch ls with
    | some (g1, g3) =>
      let title := pyStrip g1
      let text := pyStrip g3
      if singleUpperThenSpace title || isSingleUpper title then textAppendCont s ls
      else if 10 < title.count ' ' then textAppendCont s ls
      else if 5 ≤ title.length ∧ 1 ≤ upperTokens title ∧ 10 < text.length then
        if is_valid_entry text then
          { entries := closeIfValid s.entries s.current ++ [⟨title, text⟩],
            current := none, inContent := true }
        else
          { entries := closeIfValid s.entries s.current,
            current := some ⟨title, text⟩, inContent := true }
      else textMultiStep s ls
    | none => textMultiStep s ls

/-- `BritannicaTextParser.extract_entries` applied to the lines of the
file: scan the lines, flush the last open span when valid, then merge
duplicate titles. -/
def textExtractEntries (lines : List (List Char)) : List Entry :=
  let s := lines.foldl textStep ⟨[], none, false⟩
  merge_duplicate_entries (closeIfValid s.entries s.current)

/-- `len(line.strip()) > 2` on a nonblank line: the non-trivial lines kept
by the plain-text fallback. -/
def nontrivialLine (line : List Char) : Bool :=
  !(pyStrip line).isEmpty && decide (2 < (pyStrip line).length)

/-- The entry list produced by `BritannicaTextParser.parse`: when
extraction yields nothing, fall back to a single `Unknown` entry holding
the non-trivial lines joined by spaces (the lines themselves, not their
stripped forms). -/
def textParseEntries (lines : List (List Char)) : List Entry :=
  let entries := textExtractEntries lines
  if entries.isEmpty then
    let contentLines := lines.filter nontrivialLine
    if contentLines.isEmpty then [] else [⟨toL "Unknown", joinSp contentLines⟩]
  else entries

/-! ### Lemmas about the duplicate merger -/

theorem mem_firstOccs {a : List Char} {ts : List (List Char)} :
    a ∈ firstOccs ts ↔ a ∈ ts := by
  induction ts with
  | nil => simp [firstOccs]
  | cons t ts ih =>
    by_cases h : a = t <;> simp [firstOccs, List.mem_filter, ih, h]

theorem nodup_firstOccs (ts : List (List Char)) : (firstOccs ts).Nodup := by
  induction ts with
  | nil => simp [firstOccs]
  | cons t ts ih =>
    refine List.Nodup.cons ?_ (ih.filter _)
    intro hmem
    have := List.of_mem_filter hmem
    simp at this

theorem firstOccs_snoc (ts : List (List Char)) (t : List Char) :
    firstOccs (ts ++ [t]) = if t ∈ ts then firstOccs ts else firstOccs ts ++ [t] := by
  induction ts with
  | nil => simp [firstOccs]
  | cons s ss ih =>
    show s :: (firstOccs (ss ++ [t])).filter (fun a => ¬ a = s) = _
    rw [ih]
    by_cases h2 : t ∈ ss
    · rw [if_pos h2, if_pos (List.mem_cons_of_mem _ h2)]
      rfl
    · rw [if_neg h2]
      by_cases h1 : t = s
      · subst h1
        rw [if_pos (List.mem_cons_self _ _), List.filter_append]
        simp [firstOccs]
      · rw [if_neg (by simp [h1, h2]), List.filter_append]
        have : [t].filter (fun a => ¬ a = s) = [t] := by simp [h1]
        rw [this]
        rfl

theorem joinSp_snoc (xs : List (List Char)) (x : List Char) (h : xs ≠ []) :
    joinSp (xs ++ [x]) = joinSp xs ++ ' ' :: x := by
  induction xs with
  | nil => exact absurd rfl h
  | cons y ys ih =>
    cases ys with
    | nil => simp [joinSp]
    | cons z zs =>
      have := ih (by simp)
      simp only [List.cons_append] at this ⊢
      rw [joinSp, joinSp, this]
      simp

theorem addEntry_of_not_mem {m : List Entry} {nt : List Char} (x : List Char)
    (h : ∀ a ∈ m, a.title ≠ nt) : addEntry nt x m = m ++ [⟨nt, x⟩] := by
  induction m with
  | nil => rfl
  | cons a rest ih =>
    rw [addEntry, if_neg (h a (by simp)), ih (fun b hb => h b (by simp [hb]))]
    rfl

theorem addEntry_map_mk (ts : List (List Char)) (f : List Char → List Char)
    (nt x : List Char) (hnt : nt ∈ ts) (hnd : ts.Nodup) :
    addEntry nt x (ts.map (fun t => ⟨t, f t⟩)) =
      ts.map (fun t => if t = nt then ⟨t, f t ++ ' ' :: x⟩ else ⟨t, f t⟩) := by
  induction ts with
  | nil => cases hnt
  | cons t ts ih =>
    by_cases h : t = nt
    · subst h
      rw [List.map_cons, addEntry, if_pos rfl, List.map_cons, if_pos rfl]
      have hnotin : t ∉ ts := (List.nodup_cons.mp hnd).1
      have : ts.map (fun s => if s = t then (⟨s, f s ++ ' ' :: x⟩ : Entry) else ⟨s, f s⟩) =
          ts.map (fun s => ⟨s, f s⟩) := by
        refine List.map_congr_left (fun s hs => ?_)
        rw [if_neg (fun hst => hnotin (by rw [← hst]; exact hs))]
      rw [this]
    · have hnt' : nt ∈ ts := by
        rcases List.mem_cons.mp hnt with h' | h'
        · exact absurd h'.symm h
        · exact h'
      rw [List.map_cons, addEntry, if_neg (by simpa using h), List.map_cons, if_neg h,
        ih hnt' (List.nodup_cons.mp hnd).2]

theorem filter_norm_ne_nil {l : List Entry} {t : List Char}
    (h : t ∈ l.map (fun e => normalizeTitle e.title)) :
    (l.filter (fun e => normalizeTitle e.title = t)).map Entry.text ≠ [] := by
  rcases List.mem_map.mp h with ⟨e0, he0, hte⟩
  have : e0 ∈ l.filter (fun e => normalizeTitle e.title = t) :=
    List.mem_filter.mpr ⟨he0, by simp [hte]⟩
  intro hcontra
  rw [List.map_eq_nil_iff.mp hcontra] at this
  cases this

theorem groupText_snoc_ne (l : List Entry) (e : Entry) (t : List Char)
    (h : ¬ normalizeTitle e.title = t) : groupText (l ++ [e]) t = groupText l t := by
  unfold groupText
  rw [List.filter_append]
  have : [e].filter (fun a => normalizeTitle a.title = t) = [] := by simp [h]
  rw [this, List.append_nil]

theorem groupText_snoc_eq (l : List Entry) (e : Entry)
    (h : normalizeTitle e.title ∈ l.map (fun a => normalizeTitle a.title)) :
    groupText (l ++ [e]) (normalizeTitle e.title) =
      groupText l (normalizeTitle e.title) ++ ' ' :: e.text := by
  unfold groupText
  rw [List.filter_append]
  have h1 : [e].filter (fun a => normalizeTitle a.title = normalizeTitle e.title) = [e] := by
    simp
  rw [h1, List.map_append]
  exact joinSp_snoc _ _ (filter_norm_ne_nil h)

theorem groupText_snoc_new (l : List Entry) (e : Entry)
    (h : ¬ normalizeTitle e.title ∈ l.map (fun a => normalizeTitle a.title)) :
    groupText (l ++ [e]) (normalizeTitle e.title) = e.text := by
  unfold groupText
  rw [List.filter_append]
  have h0 : l.filter (fun a => normalizeTitle a.title = normalizeTitle e.title) = [] := by
    rw [List.filter_eq_nil_iff]
    intro a ha hc
    exact h (List.mem_map.mpr ⟨a, ha, by simpa using hc⟩)
  have h1 : [e].filter (fun a => normalizeTitle a.title = normalizeTitle e.title) = [e] := by
    simp
  rw [h0, h1]
  rfl

theorem specMerge_snoc (l : List Entry) (e : Entry) :
    specMerge (l ++ [e]) = addEntry (normalizeTitle e.title) e.text (specMerge l) := by
  have hmap : (l ++ [e]).map (fun a => normalizeTitle a.title) =
      l.map (fun a => normalizeTitle a.title) ++ [normalizeTitle e.title] := by simp
  by_cases h : normalizeTitle e.title ∈ l.map (fun a => normalizeTitle a.title)
  · rw [specMerge, hmap, firstOccs_snoc, if_pos h, specMerge,
      addEntry_map_mk _ (groupText l) _ _ (mem_firstOccs.mpr h) (nodup_firstOccs _)]
    refine List.map_congr_left (fun t ht => ?_)
    by_cases h2 : t = normalizeTitle e.title
    · subst h2
      rw [if_pos rfl, groupText_snoc_eq l e h]
    · rw [if_neg h2, groupText_snoc_ne l e t (fun hc => h2 hc.symm)]
  · rw [specMerge, hmap, firstOccs_snoc, if_neg h, List.map_append]
    have hnomem : ∀ a ∈ specMerge l, a.title ≠ normalizeTitle e.title := by
      intro a ha
      rw [specMerge] at ha
      rcases List.mem_map.mp ha with ⟨t, ht, rfl⟩
      exact fun hc => h (hc ▸ mem_firstOccs.mp ht)
    rw [addEntry_of_not_mem _ hnomem, specMerge]
    congr 1
    · refine List.map_congr_left (fun t ht => ?_)
      have htl : t ∈ l.map (fun a => normalizeTitle a.title) := mem_firstOccs.mp ht
      rw [groupText_snoc_ne l e t (fun hc => h (hc ▸ htl))]
    · rw [List.map_cons, List.map_nil, groupText_snoc_new l e h]

theorem merge_eq_specMerge (l : List Entry) :
    merge_duplicate_entries l = specMerge l := by
  induction l using List.reverseRecOn with
  | nil => rfl
  | append_singleton l e ih =>
    rw [merge_duplicate_entries, List.foldl_append]
    show addEntry (normalizeTitle e.title) e.text
      (List.foldl (fun acc e => addEntry (normalizeTitle e.title) e.text acc) [] l) = _
    rw [← merge_duplicate_entries, ih, specMerge_snoc]

theorem specMerge_of_stable : ∀ m : List Entry,
    (m.map Entry.title).Nodup → (∀ a ∈ m, normalizeTitle a.title = a.title) →
    specMerge m = m := by
  intro m
  induction m with
  | nil => intro _ _; rfl
  | cons e m ih =>
    intro hnd hfix
    have hfe : normalizeTitle e.title = e.title := hfix e (by simp)
    have hmap : m.map (fun a => normalizeTitle a.title) = m.map Entry.title :=
      List.map_congr_left (fun a ha => hfix a (by simp [ha]))
    have hnd' := hnd
    rw [List.map_cons, List.nodup_cons] at hnd'
    have hnotin : e.title ∉ m.map Entry.title := hnd'.1
    rw [specMerge]
    have hm2 : (e :: m).map (fun a => normalizeTitle a.title) =
        e.title :: m.map Entry.title := by
      rw [List.map_cons, hfe, hmap]
    rw [hm2, firstOccs]
    have hfilter : (firstOccs (m.map Entry.title)).filter (fun a => ¬ a = e.title) =
        firstOccs (m.map Entry.title) := by
      rw [List.filter_eq_self]
      intro a ha
      have ham : a ∈ m.map Entry.title := mem_firstOccs.mp ha
      have hane : a ≠ e.title := fun hc => hnotin (by rw [← hc]; exact ham)
      simp [hane]
    rw [hfilter, List.map_cons]
    congr 1
    · have hgt : groupText (e :: m) e.title = e.text := by
        unfold groupText
        have h1 : (e :: m).filter (fun a => normalizeTitle a.title = e.title) = [e] := by
          rw [List.filter_cons_of_pos (by simp [hfe])]
          have : m.filter (fun a => normalizeTitle a.title = e.title) = [] := by
            rw [List.filter_eq_nil_iff]
            intro a ha hc
            have hat : normalizeTitle a.title = e.title := by simpa using hc
            rw [hfix a (by simp [ha])] at hat
            exact hnotin (hat ▸ List.mem_map_of_mem Entry.title ha)
          rw [this]
        rw [h1]
        rfl
      rw [hgt]
    · have hpt : ∀ t ∈ firstOccs (m.map Entry.title),
          groupText (e :: m) t = groupText m t := by
        intro t ht
        have htm : t ∈ m.map Entry.title := mem_firstOccs.mp ht
        have hne : ¬ normalizeTitle e.title = t := by
          rw [hfe]; exact fun hc => hnotin (hc ▸ htm)
        unfold groupText
        rw [List.filter_cons_of_neg (by simp [hne])]
      calc (firstOccs (m.map Entry.title)).map
            (fun t => (⟨t, groupText (e :: m) t⟩ : Entry))
          = (firstOccs (m.map Entry.title)).map (fun t => ⟨t, groupText m t⟩) :=
            List.map_congr_left (fun t ht => by rw [hpt t ht])
        _ = specMerge m := by rw [specMerge, hmap]
        _ = m := ih hnd'.2 (fun a ha => hfix a (by simp [ha]))

theorem titles_specMerge (l : List Entry) :
    (specMerge l).map Entry.title = firstOccs (l.map fun a => normalizeTitle a.title) := by
  rw [specMerge, List.map_map]
  exact List.map_id _

theorem merge_idem_of_stable (l : List Entry)
    (H : ∀ e ∈ l, normalizeTitle (normalizeTitle e.title) = normalizeTitle e.title) :
    merge_duplicate_entries (merge_duplicate_entries l) = merge_duplicate_entries l := by
  rw [merge_eq_specMerge l, merge_eq_specMerge (specMerge l)]
  apply specMerge_of_stable
  · rw [titles_specMerge]
    exact nodup_firstOccs _
  · intro a ha
    rw [specMerge] at ha
    rcases List.mem_map.mp ha with ⟨t, ht, rfl⟩
    rcases List.mem_map.mp (mem_firstOccs.mp ht) with ⟨e0, he0, rfl⟩
    exact H e0 he0

theorem mem_merge_title {entries : List Entry} {a : Entry}
    (ha : a ∈ merge_duplicate_entries entries) :
    ∃ e0 ∈ entries, a.title = normalizeTitle e0.title := by
  rw [merge_eq_specMerge, specMerge] at ha
  rcases List.mem_map.mp ha with ⟨t, ht, rfl⟩
  rcases List.mem_map.mp (mem_firstOccs.mp ht) with ⟨e0, he0, rfl⟩
  exact ⟨e0, he0, rfl⟩

/-! ### Shape of normalised titles -/

theorem head?_dropWhile_not (p : Char → Bool) (l : List Char) {c : Char}
    (h : (l.dropWhile p).head? = some c) : p c = false := by
  induction l with
  | nil => simp [List.dropWhile] at h
  | cons a l ih =>
    rw [List.dropWhile_cons] at h
    by_cases hp : p a
    · exact ih (by rwa [if_pos hp] at h)
    · rw [if_neg hp] at h
      simp only [List.head?_cons, Option.some.injEq] at h
      rw [← h]
      exact Bool.of_not_eq_true hp

theorem getLast?_dropWhile (p : Char → Bool) (l : List Char)
    (h : l.dropWhile p ≠ []) : (l.dropWhile p).getLast? = l.getLast? := by
  induction l with
  | nil => simp at h
  | cons a l ih =>
    rw [List.dropWhile_cons]
    by_cases hp : p a
    · rw [if_pos hp]
      rw [List.dropWhile_cons, if_pos hp] at h
      have hl : l ≠ [] := by
        intro he
        rw [he] at h
        exact h rfl
      rcases List.exists_cons_of_ne_nil hl with ⟨b, l', rfl⟩
      rw [ih h, List.getLast?_cons_cons]
    · rw [if_neg hp]

theorem normalizeTitle_reverse_form (t : List Char) :
    normalizeTitle t =
      (((t.dropWhile pyIsSpace).reverse.dropWhile pyIsSpace).dropWhile
        isCommaPeriod).reverse := by
  unfold normalizeTitle rstripCommaPeriod pyStrip pyRStrip pyLStrip
  rw [List.reverse_reverse]

theorem normalizeTitle_head_not_space (t : List Char) {c : Char}
    (h : (normalizeTitle t).head? = some c) : pyIsSpace c = false := by
  rw [normalizeTitle_reverse_form, List.head?_reverse] at h
  have hne : ((t.dropWhile pyIsSpace).reverse.dropWhile pyIsSpace).dropWhile
      isCommaPeriod ≠ [] := by
    intro he
    rw [he] at h
    cases h
  rw [getLast?_dropWhile _ _ hne] at h
  have hne2 : (t.dropWhile pyIsSpace).reverse.dropWhile pyIsSpace ≠ [] := by
    intro he
    rw [he] at hne
    exact hne rfl
  rw [getLast?_dropWhile _ _ hne2, List.getLast?_reverse] at h
  exact head?_dropWhile_not _ _ h

theorem normalizeTitle_getLast_not_commaPeriod (t : List Char) {c : Char}
    (h : (normalizeTitle t).getLast? = some c) : isCommaPeriod c = false := by
  rw [normalizeTitle_reverse_form, List.getLast?_reverse] at h
  exact head?_dropWhile_not _ _ h

/-! ### Characterisation of the validator's sentence test -/

theorem hasSentenceEnd_iff (l : List Char) :
    hasSentenceEnd l = true ↔
      ∃ pre c post, l = pre ++ c :: post ∧ sentencePunct c = true ∧
        (post = [] ∨ ∃ d post2, post = d :: post2 ∧ pyIsSpace d = true) := by
  induction l with
  | nil =>
    rw [hasSentenceEnd]
    constructor
    · intro h
      cases h
    · rintro ⟨pre, c, post, heq, -, -⟩
      cases pre <;> simp at heq
  | cons a l ih =>
    cases l with
    | nil =>
      rw [hasSentenceEnd]
      constructor
      · intro h
        exact ⟨[], a, [], rfl, h, Or.inl rfl⟩
      · rintro ⟨pre, c, post, heq, hc, -⟩
        cases pre with
        | nil =>
          simp only [List.nil_append, List.cons.injEq] at heq
          rw [heq.1]
          exact hc
        | cons p ps =>
          simp only [List.cons_append, List.cons.injEq] at heq
          rcases heq with ⟨-, heq2⟩
          cases ps <;> simp at heq2
    | cons b l2 =>
      rw [hasSentenceEnd, Bool.or_eq_true, Bool.and_eq_true, ih]
      constructor
      · rintro (⟨hpa, hpb⟩ | ⟨pre, c, post, heq, hc, hpost⟩)
        · exact ⟨[], a, b :: l2, rfl, hpa, Or.inr ⟨b, l2, rfl, hpb⟩⟩
        · exact ⟨a :: pre, c, post, by rw [List.cons_append, ← heq], hc, hpost⟩
      · rintro ⟨pre, c, post, heq, hc, hpost⟩
        cases pre with
        | nil =>
          simp only [List.nil_append, List.cons.injEq] at heq
          rcases heq with ⟨rfl, heq2⟩
          rcases hpost with rfl | ⟨d, post2, rfl, hd⟩
          · cases heq2
          · left
            simp only [List.cons.injEq] at heq2
            exact ⟨hc, heq2.1 ▸ hd⟩
        | cons p ps =>
          simp only [List.cons_append, List.cons.injEq] at heq
          exact Or.inr ⟨ps, c, post, heq.2, hc, hpost⟩

/-! ### The noise filter leaves the plain-text scan unchanged -/

theorem textStep_noise (s : TextState) (line : List Char)
    (h : isNoiseLine line = true) : textStep s line = s := by
  rw [isNoiseLine] at h
  rw [textStep]
  by_cases he : (pyStrip line).isEmpty
  · rw [if_pos he]
  · rw [if_neg he, if_pos h]

theorem foldl_textStep_filter (lines : List (List Char)) (s : TextState) :
    lines.foldl textStep s = (lines.filter (fun l => !isNoiseLine l)).foldl textStep s := by
  induction lines generalizing s with
  | nil => rfl
  | cons l lines ih =>
    by_cases h : isNoiseLine l
    · rw [List.foldl_cons, textStep_noise s l h, List.filter_cons_of_neg (by simp [h])]
      exact ih s
    · rw [List.filter_cons_of_pos (by simp [h]), List.foldl_cons, List.foldl_cons]
      exact ih (textStep s l)

/-! ### Preservation lemmas for rejected title lines and continuations -/

theorem textContinuation_preserves (s : TextState) (ls : List Char) :
    (textContinuation s ls).entries = s.entries ∧
    (textContinuation s ls).current.map Entry.title = s.current.map Entry.title ∧
    (textContinuation s ls).inContent = s.inContent := by
  unfold textContinuation
  split
  · split
    next c heq =>
      split
      · exact ⟨rfl, by simp [heq], rfl⟩
      · exact ⟨rfl, rfl, rfl⟩
    next heq => exact ⟨rfl, rfl, rfl⟩
  · exact ⟨rfl, rfl, rfl⟩

theorem xmlAppendCont_preserves (s : XmlState) (line : List Char) :
    (xmlAppendCont s line).entries = s.entries ∧
    (xmlAppendCont s line).current.map Entry.title = s.current.map Entry.title := by
  unfold xmlAppendCont
  split
  next c heq => exact ⟨rfl, by simp [heq]⟩
  next heq => exact ⟨rfl, rfl⟩

/-! ## The claims -/

/-- C1 (counterexample): on the two-line document
`["ALGEBRA, a branch of mathematics.", "It deals with symbols."]` each
variant yields a single `ALGEBRA` entry, but neither entry's text starts
with `"ALGEBRA, a branch of mathematics. It deals with symbols."`: the XML
variant closes the single-line entry at once and then discards the second
line (no span is open), while the plain-text variant stores only the text
after the title, dropping the `"ALGEBRA, "` prefix. -/
theorem claim_C1_counterexample :
    xmlExtractEntries [toL "ALGEBRA, a branch of mathematics.",
        toL "It deals with symbols."] =
      [⟨toL "ALGEBRA", toL "ALGEBRA, a branch of mathematics."⟩] ∧
    textExtractEntries [toL "ALGEBRA, a branch of mathematics.",
        toL "It deals with symbols."] =
      [⟨toL "ALGEBRA", toL "a branch of mathematics. It deals with symbols."⟩] ∧
    hasPrefixL (toL "ALGEBRA, a branch of mathematics. It deals with symbols.")
      (toL "ALGEBRA, a branch of mathematics.") = false ∧
    hasPrefixL (toL "ALGEBRA, a branch of mathematics. It deals with symbols.")
      (toL "a branch of mathematics. It deals with symbols.") = false := by
  decide

/-- C1 (amended): on the input lines
`["ALGEBRA, a branch of mathematics.", "It deals with symbols."]` both
variants yield exactly one entry titled `ALGEBRA`; the XML variant's text is
`"ALGEBRA, a branch of mathematics."` (title embedded, second line dropped
because the single-line entry closes immediately), the plain-text variant's
text is `"a branch of mathematics. It deals with symbols."` (second line
appended, title not embedded). -/
theorem claim_C1_amended :
    xmlExtractEntries [toL "ALGEBRA, a branch of mathematics.",
        toL "It deals with symbols."] =
      [⟨toL "ALGEBRA", toL "ALGEBRA, a branch of mathematics."⟩] ∧
    textExtractEntries [toL "ALGEBRA, a branch of mathematics.",
        toL "It deals with symbols."] =
      [⟨toL "ALGEBRA", toL "a branch of mathematics. It deals with symbols."⟩] := by
  decide

/-- C2: `is_valid_entry` accepts a text exactly when (a) its stripped length
is at least 20 characters, (b) some sentence-terminal punctuation mark
(`.`, `!` or `?`) is followed by whitespace or ends the text, and (c) the
text contains at least five word tokens of three or more letters
(`alphaTokens` counts the non-overlapping matches of
`\b[a-zA-Z]{3,}\b`, i.e. the distinct token occurrences); in particular
every text violating one of the three conditions is rejected. -/
theorem claim_C2_validator_iff (text : List Char) :
    is_valid_entry text = true ↔
      20 ≤ (pyStrip text).length ∧
      (∃ pre c post, text = pre ++ c :: post ∧ sentencePunct c = true ∧
        (post = [] ∨ ∃ d post2, post = d :: post2 ∧ pyIsSpace d = true)) ∧
      5 ≤ alphaTokens text := by
  unfold is_valid_entry
  by_cases h1 : text.isEmpty ∨ (pyStrip text).length < 20
  · rw [if_pos h1]
    have hlt : (pyStrip text).length < 20 := by
      rcases h1 with h | h
      · have : text = [] := by
          cases text with
          | nil => rfl
          | cons a l => simp [List.isEmpty] at h
        rw [this]
        simp [pyStrip, pyRStrip, pyLStrip]
      · exact h
    constructor
    · intro hfalse
      cases hfalse
    · rintro ⟨h20, -, -⟩
      omega
  · rw [if_neg h1]
    push_neg at h1
    by_cases h2 : hasSentenceEnd text = true
    · rw [if_pos h2, decide_eq_true_eq]
      constructor
      · intro h5
        exact ⟨h1.2, (hasSentenceEnd_iff text).mp h2, h5⟩
      · rintro ⟨-, -, h5⟩
        exact h5
    · rw [if_neg h2]
      constructor
      · intro hfalse
        cases hfalse
      · rintro ⟨-, hex, -⟩
        exact absurd ((hasSentenceEnd_iff text).mpr hex) h2

/-- C3 (counterexample): the document `["ab"]` makes the XML variant's
extraction emit zero entries and has no non-trivial line (trimmed length
greater than 2), yet `parse` returns the non-empty list
`[{Unknown, "ab"}]`: the XML fallback joins all lines without the
non-triviality filter, so the claim's description of the fallback text and
of when the result is empty both fail on the XML variant. -/
theorem claim_C3_counterexample :
    xmlExtractEntries [toL "ab"] = [] ∧
    [toL "ab"].filter nontrivialLine = [] ∧
    xmlParseEntries [toL "ab"] = [⟨toL "Unknown", toL "ab"⟩] := by
  decide

/-- C3 (amended): when extraction emits zero entries, the plain-text
variant's `parse` behaves as claimed — a single `Unknown` entry holding the
non-trivial lines (trimmed length greater than 2) joined by single spaces,
and an empty list exactly when no such line exists — while the XML
variant's fallback joins all lines with no non-triviality filter and is
empty exactly when the document has no lines at all. -/
theorem claim_C3_amended :
    (∀ lines : List (List Char), textExtractEntries lines = [] →
      textParseEntries lines =
        if (lines.filter nontrivialLine).isEmpty then []
        else [⟨toL "Unknown", joinSp (lines.filter nontrivialLine)⟩]) ∧
    (∀ lines : List (List Char), xmlExtractEntries lines = [] →
      xmlParseEntries lines =
        if lines.isEmpty then [] else [⟨toL "Unknown", joinSp lines⟩]) := by
  constructor
  · intro lines h
    simp only [textParseEntries, h]
    rfl
  · intro lines h
    simp only [xmlParseEntries, h]
    rfl

/-- C3 (witness): concrete instances of the fallback, one per variant. -/
theorem claim_C3_witness :
    textParseEntries [toL "ab", toL "xyz!"] = [⟨toL "Unknown", toL "xyz!"⟩] ∧
    xmlParseEntries [toL "ab"] = [⟨toL "Unknown", toL "ab"⟩] := by
  constructor
  · exact (claim_C3_amended.1 [toL "ab", toL "xyz!"] (by decide)).trans (by decide)
  · exact (claim_C3_amended.2 [toL "ab"] (by decide)).trans (by decide)

/-- C4: the duplicate merger groups the entries by normalised title
(strip, then strip trailing commas/periods), emits one entry per normalised
title in order of first occurrence, and gives each group the space-joined
concatenation of its members' texts in emission order — `specMerge` states
exactly this contract, and the merger computes it. -/
theorem claim_C4_merge_grouping (entries : List Entry) :
    merge_duplicate_entries entries = specMerge entries :=
  merge_eq_specMerge entries

/-- C5 (counterexample): the merger is not idempotent.  Normalising
`"ABC , ,"` strips only the trailing comma run and leaves `"ABC , "`, which
a second pass normalises further to `"ABC "`, so running the merger twice
on `[{"ABC , ,", "x"}]` differs from running it once. -/
theorem claim_C5_counterexample :
    merge_duplicate_entries (merge_duplicate_entries [⟨toL "ABC , ,", toL "x"⟩]) ≠
      merge_duplicate_entries [⟨toL "ABC , ,", toL "x"⟩] := by
  decide

/-- C5 (amended): the merger is idempotent on every entry list whose
normalised titles are themselves fixed points of normalisation (which holds
whenever no title has whitespace sitting directly before its trailing
commas/periods); in general a second pass can re-normalise titles further
and merge additional groups. -/
theorem claim_C5_idempotent_of_stable (l : List Entry)
    (H : ∀ e ∈ l, normalizeTitle (normalizeTitle e.title) = normalizeTitle e.title) :
    merge_duplicate_entries (merge_duplicate_entries l) = merge_duplicate_entries l :=
  merge_idem_of_stable l H

/-- C5 (witness): a concrete stable list, with a genuine duplicate pair,
on which the amended idempotence theorem applies. -/
theorem claim_C5_witness :
    merge_duplicate_entries (merge_duplicate_entries
        [⟨toL "HELLO,", toL "a"⟩, ⟨toL " HELLO", toL "b"⟩]) =
      merge_duplicate_entries [⟨toL "HELLO,", toL "a"⟩, ⟨toL " HELLO", toL "b"⟩] :=
  claim_C5_idempotent_of_stable
    [⟨toL "HELLO,", toL "a"⟩, ⟨toL " HELLO", toL "b"⟩] (by decide)

/-- C6 (counterexample): on the three-line document
`["ALGEBRA,", "a branch of mathematics dealing", "with symbols and equations."]`
the plain-text variant yields one `ALGEBRA` entry whose text is
`"a branch of mathematics dealing with symbols and equations."` — the
title-only line opens the span with empty text, so the claimed text
`"ALGEBRA, a branch of mathematics dealing with symbols and equations."`
(title line included) is wrong for this cited variant. -/
theorem claim_C6_counterexample :
    textExtractEntries [toL "ALGEBRA,", toL "a branch of mathematics dealing",
        toL "with symbols and equations."] =
      [⟨toL "ALGEBRA", toL "a branch of mathematics dealing with symbols and equations."⟩] ∧
    toL "a branch of mathematics dealing with symbols and equations." ≠
      toL "ALGEBRA, a branch of mathematics dealing with symbols and equations." := by
  decide

/-- C6 (amended): on the input lines
`["ALGEBRA,", "a branch of mathematics dealing", "with symbols and equations."]`
both variants yield exactly one entry titled `ALGEBRA`; the XML variant's
text is `"ALGEBRA, a branch of mathematics dealing with symbols and
equations."` as claimed (its title-only line seeds the span's text), while
the plain-text variant's text omits the title line. -/
theorem claim_C6_amended :
    xmlExtractEntries [toL "ALGEBRA,", toL "a branch of mathematics dealing",
        toL "with symbols and equations."] =
      [⟨toL "ALGEBRA",
        toL "ALGEBRA, a branch of mathematics dealing with symbols and equations."⟩] ∧
    textExtractEntries [toL "ALGEBRA,", toL "a branch of mathematics dealing",
        toL "with symbols and equations."] =
      [⟨toL "ALGEBRA",
        toL "a branch of mathematics dealing with symbols and equations."⟩] := by
  decide

/-- C7 (counterexample): the plain-text variant has no looser 3-character
minimum.  `"CAT."` matches its title-only pattern with the 3-character
title `CAT` yet opens no entry (the whole document yields nothing), while
the same document headed by the 5-character `"CATES."` yields the entry —
the bound is 5 in both variants. -/
theorem claim_C7_counterexample :
    textMultiMatch (toL "CAT.") = some (toL "CAT") ∧
    textExtractEntries [toL "CAT.", toL "some more text here with many words."] = [] ∧
    textExtractEntries [toL "CATES.", toL "some more text here with many words."] =
      [⟨toL "CATES", toL "some more text here with many words."⟩] := by
  decide

/-- C7 (amended): title validation rejects any extracted title-only title
shorter than 5 characters in both variants alike (the plain-text variant
uses the same minimum of 5, with no looser bound): a matched title-only
line whose normalised title is shorter than 5 never emits or opens an
entry — the emitted entries, the open span's title and (for the plain-text
variant) the `in_content` flag are unchanged. -/
theorem claim_C7_amended :
    (∀ (s : TextState) (ls g1 : List Char), textMultiMatch ls = some g1 →
        (rstripCommaPeriod (pyStrip g1)).length < 5 →
        (textMultiStep s ls).entries = s.entries ∧
        (textMultiStep s ls).current.map Entry.title = s.current.map Entry.title ∧
        (textMultiStep s ls).inContent = s.inContent) ∧
    (∀ (s : XmlState) (line g1 : List Char), xmlMultiMatch line = some g1 →
        (rstripCommaPeriod (pyStrip g1)).length < 5 →
        (xmlMultiStep s line).entries = s.entries ∧
        (xmlMultiStep s line).current.map Entry.title = s.current.map Entry.title) := by
  constructor
  · intro s ls g1 hm hlen
    simp only [textMultiStep, hm]
    split
    · exact ⟨rfl, rfl, rfl⟩
    · split
      · exact ⟨rfl, rfl, rfl⟩
      · split
        next hcond => exact absurd hcond.1 (by omega)
        next => exact textContinuation_preserves s ls
  · intro s line g1 hm hlen
    simp only [xmlMultiStep, hm]
    split
    · exact ⟨rfl, rfl⟩
    · split
      · exact ⟨rfl, rfl⟩
      · split
        next hcond => exact absurd hcond.1 (by omega)
        next => exact xmlAppendCont_preserves s line

/-- C7 (witness): the rejected 3-character title `CAT` leaves the initial
state untouched in both variants. -/
theorem claim_C7_witness :
    (textMultiStep ⟨[], none, false⟩ (toL "CAT.")).entries = [] ∧
    (textMultiStep ⟨[], none, false⟩ (toL "CAT.")).current.map Entry.title = none ∧
    (textMultiStep ⟨[], none, false⟩ (toL "CAT.")).inContent = false ∧
    (xmlMultiStep ⟨[], none⟩ (toL "CAT.")).entries = [] ∧
    (xmlMultiStep ⟨[], none⟩ (toL "CAT.")).current.map Entry.title = none := by
  have h1 := claim_C7_amended.1 ⟨[], none, false⟩ (toL "CAT.") (toL "CAT")
    (by decide) (by decide)
  have h2 := claim_C7_amended.2 ⟨[], none⟩ (toL "CAT.") (toL "CAT")
    (by decide) (by decide)
  exact ⟨h1.1, h1.2.1, h1.2.2, h2.1, h2.2⟩

/-- C8 (counterexample): the XML variant has no boilerplate filter.  The
line `"SEVENTH EDITION,"` contains the boilerplate phrase
`"SEVENTH EDITION"`, yet the XML variant turns it into an emitted entry
whose text is that very line — it is neither dropped nor kept out of entry
text. -/
theorem claim_C8_counterexample :
    containsSub (toL "SEVENTH EDITION") (toL "SEVENTH EDITION,") = true ∧
    xmlExtractEntries [toL "SEVENTH EDITION,"] =
      [⟨toL "SEVENTH EDITION", toL "SEVENTH EDITION,"⟩] := by
  decide

/-- C8 (amended): in the plain-text variant, a line whose stripped form
contains one of the fixed boilerplate phrases is dropped before reaching
the classifier and never contributes to any entry: extraction on any
document equals extraction on the document with all such lines removed.
(The XML variant has no boilerplate filter at all.) -/
theorem claim_C8_amended (lines : List (List Char)) :
    textExtractEntries lines =
      textExtractEntries (lines.filter (fun l => !isNoiseLine l)) := by
  unfold textExtractEntries
  rw [foldl_textStep_filter]

/-- C9 (counterexample): with the span `ALGEBRA` open, the XML variant
silently discards the line `"A MAGNETISM"` — a line that is not noise and
not a valid title line (its title is rejected by the single-letter-prefix
check) — instead of appending `" A MAGNETISM"` to the open span. -/
theorem claim_C9_counterexample :
    xmlMultiMatch (toL "A MAGNETISM") = some (toL "A MAGNETISM") ∧
    singleLineMatch (toL "A MAGNETISM") = none ∧
    xmlExtractEntries [toL "ALGEBRA,", toL "A MAGNETISM"] =
      [⟨toL "ALGEBRA", toL "ALGEBRA,"⟩] := by
  decide

/-- C9 (amended): with a span open, a line matching neither title pattern
is appended to the open span — in the XML variant as `' ' + line` exactly
as claimed; in the plain-text variant the stripped line is appended, the
space separator is used only when the accumulated text is nonempty, and
stripped lines of length at most 2 are required (shorter ones are
discarded). Lines matching the title-only pattern but rejected by the
single-letter-prefix or excessive-spacing checks are discarded, not
appended. -/
theorem claim_C9_amended :
    (∀ (entries : List Entry) (c : Entry) (line : List Char),
        singleLineMatch line = none → xmlMultiMatch line = none →
        xmlStep ⟨entries, some c⟩ line =
          ⟨entries, some ⟨c.title, c.text ++ ' ' :: line⟩⟩) ∧
    (∀ (entries : List Entry) (c : Entry) (line : List Char),
        isNoiseLine line = false →
        singleLineMatch (pyStrip line) = none → textMultiMatch (pyStrip line) = none →
        2 < (pyStrip line).length →
        textStep ⟨entries, some c, true⟩ line =
          ⟨entries, some ⟨c.title,
            if c.text.isEmpty then pyStrip line else c.text ++ ' ' :: pyStrip line⟩,
            true⟩) := by
  constructor
  · intro entries c line h1 h2
    rw [xmlStep, h1, xmlMultiStep, h2]
    rfl
  · intro entries c line hn h1 h2 hlen
    have hne : ¬ (pyStrip line).isEmpty = true := by
      intro he
      rw [List.isEmpty_iff] at he
      rw [he] at hlen
      exact absurd hlen (by simp)
    rw [isNoiseLine] at hn
    rw [textStep]
    simp only [if_neg hne, hn, Bool.false_eq_true, if_false, h1, textMultiStep, h2,
      textContinuation, if_pos hlen, eq_self_iff_true, if_true]

/-- C9 (witness): concrete continuation lines appended to an open span in
each variant. -/
theorem claim_C9_witness :
    xmlStep ⟨[], some ⟨toL "ALGEBRA", toL "ALGEBRA,"⟩⟩ (toL "he said so.") =
      ⟨[], some ⟨toL "ALGEBRA", toL "ALGEBRA, he said so."⟩⟩ ∧
    textStep ⟨[], some ⟨toL "ALGEBRA", toL "ALGEBRA,"⟩, true⟩ (toL "it deals with things") =
      ⟨[], some ⟨toL "ALGEBRA", toL "ALGEBRA, it deals with things"⟩, true⟩ := by
  constructor
  · exact (claim_C9_amended.1 [] ⟨toL "ALGEBRA", toL "ALGEBRA,"⟩ (toL "he said so.")
      (by decide) (by decide)).trans (by decide)
  · exact (claim_C9_amended.2 [] ⟨toL "ALGEBRA", toL "ALGEBRA,"⟩
      (toL "it deals with things")
      (by decide) (by decide) (by decide) (by decide)).trans (by decide)

/-- C10 (counterexample): the merger's normalisation can leave trailing
whitespace.  The title `"ABC , ,"` normalises to `"ABC , "`: stripping the
trailing comma run exposes a space, which `rstrip(',.')` does not remove —
so a merged title may end in whitespace, refuting the claim that every
output title has no trailing whitespace. -/
theorem claim_C10_counterexample :
    merge_duplicate_entries [⟨toL "ABC , ,", toL "x"⟩] =
      [⟨toL "ABC , ", toL "x"⟩] ∧
    (toL "ABC , ").getLastD 'A' = ' ' := by
  decide

/-- C10 (amended): the merger rewrites every output entry's title — also
for titles that occurred only once — to the normalised form
`strip().rstrip(',.')` of some input title; such a title has no leading
whitespace and no trailing comma or period, but may retain trailing
whitespace when whitespace preceded the stripped trailing punctuation. -/
theorem claim_C10_amended (entries : List Entry) :
    ∀ a ∈ merge_duplicate_entries entries,
      (∃ e0 ∈ entries, a.title = normalizeTitle e0.title) ∧
      pyIsSpace (a.title.headD 'A') = false ∧
      isCommaPeriod (a.title.getLastD 'A') = false := by
  intro a ha
  obtain ⟨e0, he0, heq⟩ := mem_merge_title ha
  refine ⟨⟨e0, he0, heq⟩, ?_, ?_⟩
  · rw [List.headD_eq_head?_getD]
    cases hh : a.title.head? with
    | none => rfl
    | some ch =>
      rw [heq] at hh
      exact normalizeTitle_head_not_space _ hh
  · rw [List.getLastD_eq_getLast?]
    cases hh : a.title.getLast? with
    | none => rfl
    | some ch =>
      rw [heq] at hh
      exact normalizeTitle_getLast_not_commaPeriod _ hh

/-- C10 (witness): a singleton input entry, never merged with another, still
has its title rewritten to the normalised form, with no leading whitespace
and no trailing comma or period. -/
theorem claim_C10_witness :
    (∃ e0 ∈ [(⟨toL "HELLO,", toL "x"⟩ : Entry)],
      (toL "HELLO") = normalizeTitle e0.title) ∧
    pyIsSpace ((toL "HELLO").headD 'A') = false ∧
    isCommaPeriod ((toL "HELLO").getLastD 'A') = false :=
  claim_C10_amended [⟨toL "HELLO,", toL "x"⟩] ⟨toL "HELLO", toL "x"⟩ (by decide)

end Britannica
